import Mathlib

set_option maxHeartbeats 1600000

namespace HrRag

/-! Shallow embedding of the statute linkifier in `src/app/main.py`.
Text is modelled as `List Char` (Python string indices are code points).
The regex of `linkify_law_names`,
`[《「『【]? NAME [》」』】]? (第\d+條(?:之\d+)?(?:第\d+項)?(?:第\d+款)?(?:但書)?)?`,
is deterministic for a fixed NAME (each optional piece starts with a
character that cannot begin the pieces that follow it), so it is embedded
as a direct greedy matcher. -/

/-- Opening bracket/quote characters accepted before a statute name. -/
def openBrackets : List Char := ['《', '「', '『', '【']

/-- Closing bracket/quote characters accepted after a statute name. -/
def closeBrackets : List Char := ['》', '」', '』', '】']

/-- The `LAW_PCODE_MAPPING` dictionary (statute name → pcode), modelled as an
association list in insertion order. -/
abbrev LawMap := List (List Char × List Char)

/-- Dictionary lookup `LAW_PCODE_MAPPING[law_name]`; first binding wins. -/
def codeOf (lawMap : LawMap) (n : List Char) : List Char :=
  match lawMap with
  | [] => []
  | (k, v) :: rest => if k = n then v else codeOf rest n

/-- Stable insertion of a name into a length-descending list: the new name
goes after every earlier name of greater or equal length. -/
def insertByLen (n : List Char) : List (List Char) → List (List Char)
  | [] => [n]
  | x :: xs => if n.length ≤ x.length then x :: insertByLen n xs else n :: x :: xs

/-- `SORTED_LAW_NAMES`: the dictionary keys sorted by character length,
longest first (a stable descending sort, as Python's `sorted` with
`key=len, reverse=True`). -/
def sortedLawNames (lawMap : LawMap) : List (List Char) :=
  (lawMap.map Prod.fst).foldl (fun acc n => insertByLen n acc) []

/-- `之\d+` : sub-article marker with digits.  Returns the consumed
characters and the rest. -/
def partZhi (s : List Char) : Option (List Char × List Char) :=
  match s with
  | '之' :: s1 =>
    if (s1.takeWhile Char.isDigit) = [] then none
    else some ('之' :: s1.takeWhile Char.isDigit, s1.dropWhile Char.isDigit)
  | _ => none

/-- `第\d+X` for a marker character `X` (條, 項 or 款). -/
def partNum (marker : Char) (s : List Char) : Option (List Char × List Char) :=
  match s with
  | '第' :: s1 =>
    if (s1.takeWhile Char.isDigit) = [] then none
    else
      match s1.dropWhile Char.isDigit with
      | c :: s3 =>
        if c = marker then some ('第' :: (s1.takeWhile Char.isDigit ++ [marker]), s3)
        else none
      | [] => none
  | _ => none

/-- `但書` : the proviso marker. -/
def partDan (s : List Char) : Option (List Char × List Char) :=
  match s with
  | '但' :: '書' :: r => some (['但', '書'], r)
  | _ => none

/-- An optional regex piece: consume it if it matches, otherwise consume
nothing. -/
def optPart (p : List Char → Option (List Char × List Char)) (s : List Char) :
    List Char × List Char :=
  match p s with
  | some (m, r) => (m, r)
  | none => ([], s)

/-- The citation-suffix group
`第\d+條(?:之\d+)?(?:第\d+項)?(?:第\d+款)?(?:但書)?`. -/
def parseCite (s : List Char) : Option (List Char × List Char) :=
  match partNum '條' s with
  | none => none
  | some (m0, r0) =>
    some (m0 ++ (optPart partZhi r0).1
       ++ (optPart (partNum '項') (optPart partZhi r0).2).1
       ++ (optPart (partNum '款') (optPart (partNum '項') (optPart partZhi r0).2).2).1
       ++ (optPart partDan
            (optPart (partNum '款') (optPart (partNum '項') (optPart partZhi r0).2).2).2).1,
      (optPart partDan
        (optPart (partNum '款') (optPart (partNum '項') (optPart partZhi r0).2).2).2).2)

/-- Split an optional closing bracket off the front of `s`. -/
def closeSplit (s : List Char) : List Char × List Char :=
  match s with
  | c :: r => if closeBrackets.contains c then ([c], r) else ([], c :: r)
  | [] => ([], [])

/-- After the statute name: an optional closing bracket, then an optional
citation suffix.  Returns (full matched text so far, captured suffix:
`[]` encodes Python's `None`). -/
def afterName (pre : List Char) (s : List Char) : List Char × List Char :=
  match parseCite (closeSplit s).2 with
  | some (m, _) => (pre ++ (closeSplit s).1 ++ m, m)
  | none => (pre ++ (closeSplit s).1, [])

/-- Match the whole search pattern for `name` at the start of `s`:
greedy optional opening bracket, the literal name, then `afterName`.
Returns `(group 0, group 1)` on success. -/
def matchHere (name : List Char) (s : List Char) : Option (List Char × List Char) :=
  match s with
  | c :: s1 =>
    if openBrackets.contains c && name.isPrefixOf s1 then
      some (afterName (c :: name) (s1.drop name.length))
    else if name.isPrefixOf (c :: s1) then
      some (afterName name ((c :: s1).drop name.length))
    else
      none
  | [] => if name.isEmpty then some ([], []) else none

/-- One located match: span in the original text, full matched text
(group 0) and citation suffix (group 1, `[]` for absent). -/
structure RMatch where
  mstart : Nat
  mend : Nat
  full : List Char
  cite : List Char
  deriving DecidableEq

/-- `re.finditer` for the pattern of one statute name: scan left to right,
emit non-overlapping matches, resume after each match (one step forward on
an empty match). -/
def findIterFrom (name : List Char) (text : List Char) : Nat → Nat → List RMatch
  | _, 0 => []
  | pos, fuel + 1 =>
    if pos > text.length then []
    else
      match matchHere name (text.drop pos) with
      | some (g0, g1) =>
        ⟨pos, pos + g0.length, g0, g1⟩ ::
          findIterFrom name text (if g0.length = 0 then pos + 1 else pos + g0.length) fuel
      | none =>
        if pos < text.length then findIterFrom name text (pos + 1) fuel else []

/-- All matches of one statute name's pattern in `text`. -/
def findMatches (name : List Char) (text : List Char) : List RMatch :=
  findIterFrom name text 0 (text.length + 2)

/-- `is_overlapping`: does the half-open span `[s, e)` overlap any committed
range? -/
def overlapsB (s e : Nat) (ranges : List (Nat × Nat)) : Bool :=
  ranges.any (fun r => decide (s < r.2) && decide (e > r.1))

/-- Whole-statute page URL (`LawAll.aspx`). -/
def lawAllUrl (pcode : List Char) : List Char :=
  "https://law.moj.gov.tw/LawClass/LawAll.aspx?pcode=".data ++ pcode

/-- Single-article page URL (`LawSingle.aspx`). -/
def lawSingleUrl (pcode ds : List Char) : List Char :=
  "https://law.moj.gov.tw/LawClass/LawSingle.aspx?pcode=".data ++ pcode
    ++ "&flno=".data ++ ds

/-- `re.search(r'第(\d+)條', article_part)`: first `第<digits>條` anywhere in
the suffix; returns the digits. -/
def searchArticleNum : List Char → Option (List Char)
  | [] => none
  | c :: rest =>
    if c = '第' ∧ (rest.takeWhile Char.isDigit) ≠ [] ∧
        (rest.dropWhile Char.isDigit).head? = some '條' then
      some (rest.takeWhile Char.isDigit)
    else searchArticleNum rest

/-- URL construction of `linkify_law_names` lines 199–211: an article number
extracted from a non-empty citation suffix selects the single-article page,
anything else the whole-statute page. -/
def buildUrl (pcode article : List Char) : List Char :=
  if article.isEmpty then lawAllUrl pcode
  else
    match searchArticleNum article with
    | some ds => lawSingleUrl pcode ds
    | none => lawAllUrl pcode

/-- A committed replacement `(start, end, full_match, link)`. -/
structure Repl where
  rstart : Nat
  rend : Nat
  orig : List Char
  link : List Char
  deriving DecidableEq

/-- The Markdown link `[full](url)`. -/
def mkLink (full url : List Char) : List Char :=
  '[' :: (full ++ (']' :: '(' :: (url ++ [')'])))

/-- The inner match loop for one statute name: skip matches overlapping a
committed range, otherwise commit the replacement and its range. -/
def processMatches (pcode : List Char) :
    List RMatch → List Repl → List (Nat × Nat) → List Repl × List (Nat × Nat)
  | [], reps, ranges => (reps, ranges)
  | m :: rest, reps, ranges =>
    if overlapsB m.mstart m.mend ranges then
      processMatches pcode rest reps ranges
    else
      processMatches pcode rest
        (reps ++ [⟨m.mstart, m.mend, m.full, mkLink m.full (buildUrl pcode m.cite)⟩])
        (ranges ++ [(m.mstart, m.mend)])

/-- The outer loop of `linkify_law_names` over `SORTED_LAW_NAMES`. -/
def collectRepls (lawMap : LawMap) (text : List Char) :
    List (List Char) → List Repl → List (Nat × Nat) → List Repl × List (Nat × Nat)
  | [], reps, ranges => (reps, ranges)
  | n :: rest, reps, ranges =>
    collectRepls lawMap text rest
      (processMatches (codeOf lawMap n) (findMatches n text) reps ranges).1
      (processMatches (codeOf lawMap n) (findMatches n text) reps ranges).2

/-- The replacements committed by a call of `linkify_law_names`. -/
def committedRepls (lawMap : LawMap) (text : List Char) : List Repl :=
  (collectRepls lawMap text (sortedLawNames lawMap) [] []).1

/-- The ranges committed by a call of `linkify_law_names`. -/
def committedRanges (lawMap : LawMap) (text : List Char) : List (Nat × Nat) :=
  (collectRepls lawMap text (sortedLawNames lawMap) [] []).2

/-- Stable insertion for the descending sort by start offset
(`replacements.sort(key=lambda x: x[0], reverse=True)`). -/
def insertByStart (r : Repl) : List Repl → List Repl
  | [] => [r]
  | x :: xs => if x.rstart ≥ r.rstart then x :: insertByStart r xs else r :: x :: xs

/-- Sort the replacement list by start offset, descending, stable. -/
def sortRepls (rs : List Repl) : List Repl :=
  rs.foldl (fun acc r => insertByStart r acc) []

/-- Apply the replacements in list order:
`result = result[:start] + link + result[end:]`. -/
def applyRepls (text : List Char) (rs : List Repl) : List Char :=
  rs.foldl (fun res r => res.take r.rstart ++ r.link ++ res.drop r.rend) text

/-- `linkify_law_names`: turn statute references in `text` into Markdown
links, given the name → pcode dictionary. -/
def linkify_law_names (lawMap : LawMap) (text : List Char) : List Char :=
  if text.isEmpty || lawMap.isEmpty then text
  else
    applyRepls text (sortRepls (collectRepls lawMap text (sortedLawNames lawMap) [] []).1)

/-- Whitespace, as Python's `\s` on the characters that occur here. -/
def isWs (c : Char) : Bool := c.isWhitespace

/-- The four recognized "related statutes" header literals of
`linkify_law_section`, in the order they are tried. -/
def headerLits : List (List Char) :=
  ["相關法規".data, "相關法規引用".data, "引用法規".data, "法規依據".data]

/-- Match one header pattern (`literal`, one colon `：` or `:`, then `\s*`)
at the start of `s`; return the number of characters consumed. -/
def headerHere (lit : List Char) (s : List Char) : Option Nat :=
  if lit.isPrefixOf s then
    match s.drop lit.length with
    | c :: r =>
      if c = '：' ∨ c = ':' then some (lit.length + 1 + (r.takeWhile isWs).length)
      else none
    | [] => none
  else none

/-- `re.search` for a header pattern: position just after the leftmost
header match (its `match.end()`). -/
def searchHdr (lit : List Char) : List Char → Option Nat
  | [] => headerHere lit []
  | c :: rest =>
    match headerHere lit (c :: rest) with
    | some k => some k
    | none => (searchHdr lit rest).map (· + 1)

/-- Does the section-terminator pattern `\n\n\n|\n\n(?=[^《「『【\n])` match
at the start of `s`? -/
def sectionEndAt (s : List Char) : Bool :=
  match s with
  | '\n' :: '\n' :: '\n' :: _ => true
  | '\n' :: '\n' :: c :: _ => !(openBrackets.contains c) && !(c = '\n')
  | _ => false

/-- Index of the leftmost section terminator in `s`. -/
def findSectionEnd : List Char → Option Nat
  | [] => none
  | s@(_ :: rest) =>
    if sectionEndAt s then some 0
    else (findSectionEnd rest).map (· + 1)

/-- Start of the scoped region: skip `[\s\n]*` after the header match. -/
def sectionContentStart (text : List Char) (headerEnd : Nat) : Nat :=
  headerEnd + ((text.drop headerEnd).takeWhile isWs).length

/-- End of the scoped region: the next paragraph break, or the end of the
text if none is found. -/
def sectionEndPos (text : List Char) (contentStart : Nat) : Nat :=
  match findSectionEnd (text.drop contentStart) with
  | some p => contentStart + p
  | none => text.length

/-- The body of `linkify_law_section` once a header match ending at
`headerEnd` has been found: linkify only the scoped region. -/
def sectionApply (lawMap : LawMap) (text : List Char) (headerEnd : Nat) : List Char :=
  text.take (sectionContentStart text headerEnd)
    ++ linkify_law_names lawMap
        ((text.drop (sectionContentStart text headerEnd)).take
          (sectionEndPos text (sectionContentStart text headerEnd)
            - sectionContentStart text headerEnd))
    ++ text.drop (sectionEndPos text (sectionContentStart text headerEnd))

/-- Try the header patterns in order; the first one that matches anywhere
scopes the transformation. -/
def sectionLoop (lawMap : LawMap) (text : List Char) : List (List Char) → List Char
  | [] => text
  | lit :: rest =>
    match searchHdr lit text with
    | some k => sectionApply lawMap text k
    | none => sectionLoop lawMap text rest

/-- `linkify_law_section`: linkify statute names only inside the
"related statutes" block. -/
def linkify_law_section (lawMap : LawMap) (text : List Char) : List Char :=
  if text.isEmpty then text else sectionLoop lawMap text headerLits

/-- Does `needle` occur in `hay` starting at position `i`? -/
def occursAtB (needle hay : List Char) (i : Nat) : Bool :=
  needle.isPrefixOf (hay.drop i)

/-- Does `needle` occur anywhere in `hay` as a contiguous segment? -/
def hasSegment (needle : List Char) : List Char → Bool
  | [] => needle.isEmpty
  | h :: t => needle.isPrefixOf (h :: t) || hasSegment needle t

/-- No recognized "related statutes" header occurs in `text`. -/
def noHeaderB (text : List Char) : Bool :=
  headerLits.all (fun lit => (searchHdr lit text).isNone)

/-- The expected result of substituting an ascending list of replacements:
keep `text` up to each start, emit the link, resume after each end. -/
def interleaveFrom (text : List Char) : Nat → List Repl → List Char
  | pos, [] => text.drop pos
  | pos, r :: rest =>
    (text.drop pos).take (r.rstart - pos) ++ r.link ++ interleaveFrom text r.rend rest

/-- The replacement list is ascending, with non-empty pairwise-disjoint
spans inside the text. -/
def spansChainB (text : List Char) : Nat → List Repl → Bool
  | _, [] => true
  | pos, r :: rest =>
    decide (pos ≤ r.rstart) && decide (r.rstart < r.rend) &&
      decide (r.rend ≤ text.length) && spansChainB text r.rend rest

/-! ### Basic helper lemmas -/

theorem isPrefixOf_iff_take {l s : List Char} :
    l.isPrefixOf s = true ↔ s.take l.length = l := by
  induction l generalizing s with
  | nil => simp [List.isPrefixOf]
  | cons a l ih =>
    cases s with
    | nil => simp [List.isPrefixOf]
    | cons b s =>
      simp only [List.isPrefixOf, List.take, Bool.and_eq_true, beq_iff_eq,
        List.cons.injEq, ih]
      tauto

theorem append_drop_of_isPre {l s : List Char} (h : l.isPrefixOf s = true) :
    l ++ s.drop l.length = s := by
  have ht := isPrefixOf_iff_take.mp h
  conv_rhs => rw [← List.take_append_drop l.length s]
  rw [ht]

theorem isPre_of_append (l t : List Char) : l.isPrefixOf (l ++ t) = true := by
  rw [isPrefixOf_iff_take, List.take_append_eq_append_take]
  simp

theorem isPre_of_isPre_append {a b s : List Char}
    (h : (a ++ b).isPrefixOf s = true) : a.isPrefixOf s = true := by
  have hab := append_drop_of_isPre h
  rw [isPrefixOf_iff_take]
  calc s.take a.length
      = ((a ++ b) ++ s.drop (a ++ b).length).take a.length := by rw [hab]
    _ = (a ++ (b ++ s.drop (a ++ b).length)).take a.length := by rw [List.append_assoc]
    _ = a := by rw [List.take_append_eq_append_take]; simp

theorem isPre_nil_false {l : List Char} (h : l ≠ []) :
    l.isPrefixOf ([] : List Char) = false := by
  cases l with
  | nil => exact absurd rfl h
  | cons a l => rfl

/-- `text.drop i = c :: s1` forces `s1 = text.drop (i + 1)`. -/
theorem drop_succ_of_drop_cons {text : List Char} {i : Nat} {c : Char}
    {s1 : List Char} (h : text.drop i = c :: s1) : text.drop (i + 1) = s1 := by
  have h1 : text.drop (i + 1) = (text.drop i).drop 1 := by
    rw [List.drop_drop]
  rw [h1, h, List.drop_one, List.tail_cons]

/-! ### Decomposition of the pattern matcher -/

theorem partZhi_spec {s m r : List Char} (h : partZhi s = some (m, r)) :
    s = m ++ r := by
  unfold partZhi at h
  split at h
  · rename_i s1
    split at h
    · simp at h
    · rw [Option.some.injEq, Prod.mk.injEq] at h
      obtain ⟨hm, hr⟩ := h
      subst hm; subst hr
      simp [List.takeWhile_append_dropWhile Char.isDigit s1]
  · simp at h

theorem partNum_spec {mk : Char} {s m r : List Char}
    (h : partNum mk s = some (m, r)) :
    s = m ++ r ∧ ∃ ds, ds ≠ [] ∧ (∀ c ∈ ds, c.isDigit = true) ∧
      m = '第' :: (ds ++ [mk]) := by
  unfold partNum at h
  split at h
  · rename_i s1
    split at h
    · simp at h
    · rename_i hds
      split at h
      · rename_i c s3 hdw
        split at h
        · rename_i hc
          rw [Option.some.injEq, Prod.mk.injEq] at h
          obtain ⟨hm, hr⟩ := h
          subst hc
          refine ⟨?_, s1.takeWhile Char.isDigit, hds,
            fun c hc => List.mem_takeWhile_imp hc, hm.symm⟩
          rw [← hm, ← hr]
          calc '第' :: s1
              = '第' :: (s1.takeWhile Char.isDigit ++ s1.dropWhile Char.isDigit) := by
                rw [List.takeWhile_append_dropWhile Char.isDigit s1]
            _ = '第' :: (s1.takeWhile Char.isDigit ++ (c :: s3)) := by rw [hdw]
            _ = ('第' :: (s1.takeWhile Char.isDigit ++ [c])) ++ s3 := by simp
        · simp at h
      · simp at h
  · simp at h

theorem partDan_spec {s m r : List Char} (h : partDan s = some (m, r)) :
    s = m ++ r := by
  unfold partDan at h
  split at h
  · rw [Option.some.injEq, Prod.mk.injEq] at h
    obtain ⟨hm, hr⟩ := h
    subst hm; subst hr; rfl
  · simp at h

theorem optPart_pre {p : List Char → Option (List Char × List Char)}
    {s : List Char}
    (hp : ∀ m r, p s = some (m, r) → s = m ++ r) :
    s = (optPart p s).1 ++ (optPart p s).2 := by
  unfold optPart
  cases hps : p s with
  | none => simp
  | some v =>
    obtain ⟨m, r⟩ := v
    simpa using hp m r hps

theorem parseCite_spec {s m r : List Char} (h : parseCite s = some (m, r)) :
    s = m ++ r ∧ ∃ ds rest2, ds ≠ [] ∧ (∀ c ∈ ds, c.isDigit = true) ∧
      m = '第' :: (ds ++ '條' :: rest2) := by
  unfold parseCite at h
  split at h
  · simp at h
  · rename_i m0 r0 h0
    rw [Option.some.injEq, Prod.mk.injEq] at h
    obtain ⟨hm, hr⟩ := h
    obtain ⟨hs0, ds, hds, hdig, hm0⟩ := partNum_spec h0
    have hz : r0 = (optPart partZhi r0).1 ++ (optPart partZhi r0).2 :=
      optPart_pre (fun m r h => partZhi_spec h)
    have hx : (optPart partZhi r0).2 =
        (optPart (partNum '項') (optPart partZhi r0).2).1 ++
        (optPart (partNum '項') (optPart partZhi r0).2).2 :=
      optPart_pre (fun m r h => (partNum_spec h).1)
    have hk : (optPart (partNum '項') (optPart partZhi r0).2).2 =
        (optPart (partNum '款') (optPart (partNum '項') (optPart partZhi r0).2).2).1 ++
        (optPart (partNum '款') (optPart (partNum '項') (optPart partZhi r0).2).2).2 :=
      optPart_pre (fun m r h => (partNum_spec h).1)
    have hd : (optPart (partNum '款') (optPart (partNum '項') (optPart partZhi r0).2).2).2 =
        (optPart partDan (optPart (partNum '款')
          (optPart (partNum '項') (optPart partZhi r0).2).2).2).1 ++
        (optPart partDan (optPart (partNum '款')
          (optPart (partNum '項') (optPart partZhi r0).2).2).2).2 :=
      optPart_pre (fun m r h => partDan_spec h)
    constructor
    · rw [hs0, ← hm, ← hr]
      conv_lhs => rw [hz]
      conv_lhs => rw [hx]
      conv_lhs => rw [hk]
      conv_lhs => rw [hd]
      simp [List.append_assoc]
    · refine ⟨ds, (optPart partZhi r0).1 ++
        ((optPart (partNum '項') (optPart partZhi r0).2).1 ++
          ((optPart (partNum '款') (optPart (partNum '項') (optPart partZhi r0).2).2).1 ++
            (optPart partDan (optPart (partNum '款')
              (optPart (partNum '項') (optPart partZhi r0).2).2).2).1)),
        hds, hdig, ?_⟩
      rw [← hm, hm0]
      simp [List.append_assoc]

theorem closeSplit_spec (s : List Char) :
    (closeSplit s).1 ++ (closeSplit s).2 = s ∧
      ((closeSplit s).1 = [] ∨
        ∃ c, c ∈ closeBrackets ∧ (closeSplit s).1 = [c]) := by
  cases s with
  | nil => simp [closeSplit]
  | cons c r =>
    by_cases hc : c ∈ closeBrackets
    · have he : closeSplit (c :: r) = ([c], r) := by simp [closeSplit, hc]
      rw [he]
      exact ⟨rfl, Or.inr ⟨c, hc, rfl⟩⟩
    · have he : closeSplit (c :: r) = ([], c :: r) := by simp [closeSplit, hc]
      rw [he]
      simp

theorem afterName_spec {pre s a1 a2 : List Char}
    (h : afterName pre s = (a1, a2)) :
    ∃ cb rest,
      (cb = [] ∨ ∃ c, c ∈ closeBrackets ∧ cb = [c]) ∧
      s = cb ++ (a2 ++ rest) ∧
      a1 = pre ++ (cb ++ a2) ∧
      (a2 = [] ∨ ∃ ds rest2, ds ≠ [] ∧ (∀ c ∈ ds, c.isDigit = true) ∧
        a2 = '第' :: (ds ++ '條' :: rest2)) := by
  obtain ⟨hsplit, hshape⟩ := closeSplit_spec s
  unfold afterName at h
  cases hpc : parseCite (closeSplit s).2 with
  | none =>
    rw [hpc] at h
    rw [Prod.mk.injEq] at h
    obtain ⟨h1, h2⟩ := h
    subst h1; subst h2
    refine ⟨(closeSplit s).1, (closeSplit s).2, hshape, ?_, by simp, Or.inl rfl⟩
    simpa using hsplit.symm
  | some v =>
    obtain ⟨m, rr⟩ := v
    rw [hpc] at h
    rw [Prod.mk.injEq] at h
    obtain ⟨h1, h2⟩ := h
    subst h1; subst h2
    obtain ⟨hpre, ds, rest2, hds, hdig, hm⟩ := parseCite_spec hpc
    refine ⟨(closeSplit s).1, rr, hshape, ?_, by simp,
      Or.inr ⟨ds, rest2, hds, hdig, hm⟩⟩
    conv_lhs => rw [← hsplit]
    rw [hpre]

/-- Full structural decomposition of an accepted match: optional opening
bracket, the statute name, optional closing bracket, optional citation
suffix; group 0 is exactly the consumed span of `s`. -/
theorem matchHere_decomp {name s g0 g1 : List Char}
    (h : matchHere name s = some (g0, g1)) :
    ∃ ob cb rest,
      (ob = [] ∨ ∃ c, c ∈ openBrackets ∧ ob = [c]) ∧
      (cb = [] ∨ ∃ c, c ∈ closeBrackets ∧ cb = [c]) ∧
      g0 = ob ++ (name ++ (cb ++ g1)) ∧
      s = g0 ++ rest ∧
      (g1 = [] ∨ ∃ ds rest2, ds ≠ [] ∧ (∀ c ∈ ds, c.isDigit = true) ∧
        g1 = '第' :: (ds ++ '條' :: rest2)) := by
  unfold matchHere at h
  split at h
  · rename_i c s1
    split at h
    · rename_i hcond
      rw [Bool.and_eq_true] at hcond
      obtain ⟨hopen, hpre⟩ := hcond
      rw [Option.some.injEq] at h
      obtain ⟨cb, rest, hcb, hseq, hg0, hcite⟩ := afterName_spec h
      refine ⟨[c], cb, rest, Or.inr ⟨c, by simpa using hopen, rfl⟩, hcb, ?_, ?_, hcite⟩
      · rw [hg0]; simp
      · rw [hg0]
        have hs1 : name ++ s1.drop name.length = s1 := append_drop_of_isPre hpre
        calc c :: s1 = c :: (name ++ s1.drop name.length) := by rw [hs1]
          _ = c :: (name ++ (cb ++ (g1 ++ rest))) := by rw [← hseq]
          _ = (c :: name ++ (cb ++ g1)) ++ rest := by simp
    · split at h
      · rename_i hpre
        rw [Option.some.injEq] at h
        obtain ⟨cb, rest, hcb, hseq, hg0, hcite⟩ := afterName_spec h
        refine ⟨[], cb, rest, Or.inl rfl, hcb, ?_, ?_, hcite⟩
        · rw [hg0]; simp
        · rw [hg0]
          have hs1 : name ++ (c :: s1).drop name.length = c :: s1 :=
            append_drop_of_isPre hpre
          calc c :: s1 = name ++ (c :: s1).drop name.length := hs1.symm
            _ = name ++ (cb ++ (g1 ++ rest)) := by rw [← hseq]
            _ = (name ++ (cb ++ g1)) ++ rest := by simp
      · simp at h
  · split at h
    · rename_i hne
      rw [Option.some.injEq, Prod.mk.injEq] at h
      obtain ⟨hg0, hg1⟩ := h
      have hname : name = [] := by simpa using hne
      exact ⟨[], [], [], Or.inl rfl, Or.inl rfl,
        by simp [← hg0, ← hg1, hname], by simp [← hg0], Or.inl (hg1.symm)⟩
    · simp at h

/-! ### Scanning lemmas -/

theorem findIterFrom_stop {name text : List Char} {pos fuel : Nat}
    (h : pos > text.length) : findIterFrom name text pos (fuel + 1) = [] := by
  unfold findIterFrom
  rw [if_pos h]

theorem findIterFrom_succ_none {name text : List Char} {pos fuel : Nat}
    (h : matchHere name (text.drop pos) = none) :
    findIterFrom name text pos (fuel + 1) =
      if pos < text.length then findIterFrom name text (pos + 1) fuel else [] := by
  conv_lhs => unfold findIterFrom
  rw [h]
  by_cases hgt : pos > text.length
  · rw [if_pos hgt, if_neg (by omega)]
  · rw [if_neg hgt]

theorem findIterFrom_succ_some {name text : List Char} {pos fuel : Nat}
    {g0 g1 : List Char}
    (hle : pos ≤ text.length)
    (h : matchHere name (text.drop pos) = some (g0, g1)) :
    findIterFrom name text pos (fuel + 1) =
      ⟨pos, pos + g0.length, g0, g1⟩ ::
        findIterFrom name text (if g0.length = 0 then pos + 1 else pos + g0.length) fuel := by
  conv_lhs => unfold findIterFrom
  rw [h, if_neg (by omega)]

theorem matchHere_at_none {name text : List Char} {i : Nat}
    (h1 : occursAtB name text i = false) (h2 : occursAtB name text (i + 1) = false) :
    matchHere name (text.drop i) = none := by
  unfold occursAtB at h1 h2
  cases hd : text.drop i with
  | nil =>
    rw [hd] at h1
    have hne : ¬ name.isEmpty = true := by
      intro hh
      rw [List.isEmpty_iff] at hh
      subst hh
      simp [List.isPrefixOf] at h1
    unfold matchHere
    rw [if_neg hne]
  | cons c s1 =>
    have hs1 : text.drop (i + 1) = s1 := drop_succ_of_drop_cons hd
    rw [hd] at h1
    rw [hs1] at h2
    simp only [matchHere]
    rw [h2]
    rw [if_neg (by simp), if_neg (by simp [h1])]

theorem scan_none_from {name text : List Char} {q : Nat}
    (h : ∀ i, q ≤ i → matchHere name (text.drop i) = none) :
    ∀ fuel pos, q ≤ pos → findIterFrom name text pos fuel = [] := by
  intro fuel
  induction fuel with
  | zero => intro pos _; rfl
  | succ fuel ih =>
    intro pos hpos
    by_cases hgt : pos > text.length
    · exact findIterFrom_stop hgt
    · rw [findIterFrom_succ_none (h pos hpos)]
      by_cases hlt : pos < text.length
      · rw [if_pos hlt]
        exact ih (pos + 1) (by omega)
      · rw [if_neg hlt]

/-- Every emitted match is sound: its groups come from `matchHere` at its
start offset and its end is start plus the length of group 0. -/
theorem findIter_sound {name text : List Char} :
    ∀ fuel pos m, m ∈ findIterFrom name text pos fuel →
      matchHere name (text.drop m.mstart) = some (m.full, m.cite) ∧
        m.mend = m.mstart + m.full.length := by
  intro fuel
  induction fuel with
  | zero => intro pos m hm; simp [findIterFrom] at hm
  | succ fuel ih =>
    intro pos m hm
    by_cases hgt : pos > text.length
    · rw [findIterFrom_stop hgt] at hm
      simp at hm
    · cases hmh : matchHere name (text.drop pos) with
      | none =>
        rw [findIterFrom_succ_none hmh] at hm
        by_cases hlt : pos < text.length
        · rw [if_pos hlt] at hm
          exact ih _ m hm
        · rw [if_neg hlt] at hm
          simp at hm
      | some v =>
        obtain ⟨g0, g1⟩ := v
        rw [findIterFrom_succ_some (by omega) hmh] at hm
        rcases List.mem_cons.mp hm with hm | hm
        · subst hm
          exact ⟨hmh, rfl⟩
        · exact ih _ m hm

/-- If the only position where a match could begin is `p`, the scan emits
exactly that one match. -/
theorem scan_one {name text : List Char} {p : Nat} {g0 g1 : List Char}
    (hp : p ≤ text.length) (hg : g0 ≠ [])
    (hlow : ∀ i, i < p → matchHere name (text.drop i) = none)
    (hmid : matchHere name (text.drop p) = some (g0, g1))
    (hhigh : ∀ i, p + g0.length ≤ i → matchHere name (text.drop i) = none) :
    ∀ fuel pos, pos ≤ p → text.length + 2 ≤ fuel + pos →
      findIterFrom name text pos fuel = [⟨p, p + g0.length, g0, g1⟩] := by
  intro fuel
  induction fuel with
  | zero =>
    intro pos hpos hfuel
    omega
  | succ fuel ih =>
    intro pos hpos hfuel
    by_cases hpp : pos = p
    · subst hpp
      rw [findIterFrom_succ_some hp hmid]
      have hlen : ¬ g0.length = 0 := by simpa using hg
      rw [if_neg hlen]
      rw [scan_none_from hhigh fuel (pos + g0.length) (le_refl _)]
    · have hlt : pos < p := by omega
      rw [findIterFrom_succ_none (hlow pos hlt)]
      rw [if_pos (by omega)]
      exact ih (pos + 1) (by omega) (by omega)

/-! ### Arithmetic of the citation suffix -/

theorem takeWhile_digits_append (t : List Char) :
    ∀ ds : List Char, (∀ c ∈ ds, c.isDigit = true) →
      ((ds ++ '條' :: t).takeWhile Char.isDigit = ds ∧
        (ds ++ '條' :: t).dropWhile Char.isDigit = '條' :: t) := by
  intro ds
  induction ds with
  | nil =>
    intro _
    have hfd : Char.isDigit '條' = false := by decide
    constructor
    · simp [List.takeWhile_cons, hfd]
    · simp [List.dropWhile_cons, hfd]
  | cons a ds ih =>
    intro hdig
    have ha : a.isDigit = true := hdig a (by simp)
    obtain ⟨ih1, ih2⟩ := ih (fun c hc => hdig c (by simp [hc]))
    constructor
    · simp [List.takeWhile_cons, ha, ih1]
    · simp [List.dropWhile_cons, ha, ih2]

/-- C10 — a non-empty citation-suffix capture necessarily starts with
`第<digits>條`, so the inner `re.search` for the article number always
succeeds: the whole-statute fallback inside the citation branch is
unreachable, and every match with a citation suffix links to the
single-article page. -/
theorem c10_cite_always_single_article (name s g0 g1 : List Char)
    (h : matchHere name s = some (g0, g1)) (hne : g1 ≠ []) :
    ∃ ds, ds ≠ [] ∧ searchArticleNum g1 = some ds ∧
      ∀ pcode, buildUrl pcode g1 = lawSingleUrl pcode ds := by
  obtain ⟨ob, cb, rest, _, _, _, _, hcite⟩ := matchHere_decomp h
  rcases hcite with hcite | ⟨ds, rest2, hds, hdig, hg1⟩
  · exact absurd hcite hne
  · obtain ⟨htw, hdw⟩ := takeWhile_digits_append rest2 ds hdig
    have hsearch : searchArticleNum g1 = some ds := by
      rw [hg1]
      unfold searchArticleNum
      rw [if_pos]
      · rw [htw]
      · exact ⟨rfl, by rw [htw]; exact hds, by simp [hdw]⟩
    refine ⟨ds, hds, hsearch, ?_⟩
    intro pcode
    unfold buildUrl
    rw [if_neg (by simp [hg1]), hsearch]

theorem c10_cite_always_single_article_witness :
    matchHere "勞動基準法".data "勞動基準法第11條規定".data
        = some ("勞動基準法第11條".data, "第11條".data) ∧
      ∃ ds, ds ≠ [] ∧ searchArticleNum "第11條".data = some ds ∧
        ∀ pcode, buildUrl pcode "第11條".data = lawSingleUrl pcode ds :=
  ⟨by decide,
    c10_cite_always_single_article "勞動基準法".data "勞動基準法第11條規定".data
      "勞動基準法第11條".data "第11條".data (by decide) (by decide)⟩

/-- C8 counterexample — the matcher pairs a leading `《` with a trailing
`」`, and consumes a trailing `》` with no leading bracket at all: the
trailing bracket class is checked independently of the leading one. -/
theorem c8_counterexample :
    matchHere "勞動基準法".data "《勞動基準法」".data
        = some ("《勞動基準法」".data, []) ∧
      matchHere "勞動基準法".data "勞動基準法》".data
        = some ("勞動基準法》".data, []) ∧
      linkify_law_names [("勞動基準法".data, "N0030001".data)] "《勞動基準法」".data
        = "[《勞動基準法」](https://law.moj.gov.tw/LawClass/LawAll.aspx?pcode=N0030001)".data := by
  exact ⟨by decide, by decide, by decide⟩

/-- C8 (amended) — a match consumes at most one leading character from
`《「『【` and at most one trailing character from `》」』】`, each
independently optional; the trailing character need not correspond to the
leading one and may be consumed without any leading bracket. -/
theorem c8_brackets_independent (name s g0 g1 : List Char)
    (h : matchHere name s = some (g0, g1)) :
    ∃ ob cb,
      (ob = [] ∨ ∃ c, c ∈ openBrackets ∧ ob = [c]) ∧
      (cb = [] ∨ ∃ c, c ∈ closeBrackets ∧ cb = [c]) ∧
      g0 = ob ++ (name ++ (cb ++ g1)) := by
  obtain ⟨ob, cb, rest, hob, hcb, hg0, _, _⟩ := matchHere_decomp h
  exact ⟨ob, cb, hob, hcb, hg0⟩

theorem c8_brackets_independent_witness :
    ∃ ob cb,
      (ob = [] ∨ ∃ c, c ∈ openBrackets ∧ ob = [c]) ∧
      (cb = [] ∨ ∃ c, c ∈ closeBrackets ∧ cb = [c]) ∧
      "《勞動基準法」".data = ob ++ ("勞動基準法".data ++ (cb ++ [])) :=
  c8_brackets_independent "勞動基準法".data "《勞動基準法」".data
    "《勞動基準法」".data [] (by decide)

/-! ### Claim C5: no occurrence of any statute name -/

theorem occursAtB_false_beyond {n text : List Char} {i : Nat}
    (hne : n ≠ []) (hi : text.length ≤ i) : occursAtB n text i = false := by
  unfold occursAtB
  rw [List.drop_eq_nil_of_le hi]
  exact isPre_nil_false hne

theorem mem_insertByLen {n x : List Char} :
    ∀ l, x ∈ insertByLen n l → x = n ∨ x ∈ l := by
  intro l
  induction l with
  | nil =>
    intro h
    simp [insertByLen] at h
    exact Or.inl h
  | cons a l ih =>
    intro h
    unfold insertByLen at h
    split at h
    · rcases List.mem_cons.mp h with h | h
      · exact Or.inr (by simp [h])
      · rcases ih h with h | h
        · exact Or.inl h
        · exact Or.inr (List.mem_cons_of_mem a h)
    · rcases List.mem_cons.mp h with h | h
      · exact Or.inl h
      · exact Or.inr h

theorem mem_foldl_insertByLen {x : List Char} :
    ∀ (l acc : List (List Char)),
      x ∈ l.foldl (fun a n => insertByLen n a) acc → x ∈ acc ∨ x ∈ l := by
  intro l
  induction l with
  | nil => intro acc h; exact Or.inl h
  | cons n rest ih =>
    intro acc h
    simp only [List.foldl] at h
    rcases ih (insertByLen n acc) h with h | h
    · rcases mem_insertByLen acc h with h | h
      · exact Or.inr (by simp [h])
      · exact Or.inl h
    · exact Or.inr (List.mem_cons_of_mem n h)

theorem mem_sortedLawNames {lawMap : LawMap} {x : List Char}
    (h : x ∈ sortedLawNames lawMap) : x ∈ lawMap.map Prod.fst := by
  unfold sortedLawNames at h
  rcases mem_foldl_insertByLen (lawMap.map Prod.fst) [] h with h | h
  · simp at h
  · exact h

theorem collectRepls_nil_matches {lawMap : LawMap} {text : List Char} :
    ∀ names reps ranges, (∀ n ∈ names, findMatches n text = []) →
      collectRepls lawMap text names reps ranges = (reps, ranges) := by
  intro names
  induction names with
  | nil => intro reps ranges _; rfl
  | cons n rest ih =>
    intro reps ranges h
    unfold collectRepls
    rw [h n (List.mem_cons_self n rest)]
    simp only [processMatches]
    exact ih _ _ (fun x hx => h x (List.mem_cons_of_mem n hx))

/-- C5 — a text with no occurrence of any statute name of the code map is
returned unchanged. -/
theorem c5_no_occurrence_identity (lawMap : LawMap) (text : List Char)
    (h : ∀ n, n ∈ lawMap.map Prod.fst →
      ∀ i, i ≤ text.length → occursAtB n text i = false) :
    linkify_law_names lawMap text = text := by
  unfold linkify_law_names
  split
  · rfl
  · have hcoll : collectRepls lawMap text (sortedLawNames lawMap) [] [] = ([], []) := by
      apply collectRepls_nil_matches
      intro n hn
      have hkey := mem_sortedLawNames hn
      have hne : n ≠ [] := by
        intro hnil
        have h0 := h n hkey 0 (Nat.zero_le _)
        rw [hnil] at h0
        simp [occursAtB, List.isPrefixOf] at h0
      have hall : ∀ i, matchHere n (text.drop i) = none := by
        intro i
        have f1 : occursAtB n text i = false := by
          by_cases hi : i ≤ text.length
          · exact h n hkey i hi
          · exact occursAtB_false_beyond hne (by omega)
        have f2 : occursAtB n text (i + 1) = false := by
          by_cases hi : i + 1 ≤ text.length
          · exact h n hkey (i + 1) hi
          · exact occursAtB_false_beyond hne (by omega)
        exact matchHere_at_none f1 f2
      unfold findMatches
      exact scan_none_from (fun i _ => hall i) (text.length + 2) 0 (Nat.zero_le _)
    rw [hcoll]
    rfl

theorem c5_no_occurrence_identity_witness :
    linkify_law_names [("勞動基準法".data, "N0030001".data)] "今天天氣很好".data
      = "今天天氣很好".data :=
  c5_no_occurrence_identity _ _ (by decide)

/-- C6 — empty text or an empty code map makes `linkify_law_names` the
identity transform; it never errors. -/
theorem c6_degenerate_identity (lawMap : LawMap) (text : List Char)
    (h : text = [] ∨ lawMap = []) : linkify_law_names lawMap text = text := by
  rcases h with h | h <;> subst h <;> simp [linkify_law_names]

theorem c6_degenerate_identity_witness :
    linkify_law_names [] "勞動基準法第11條".data = "勞動基準法第11條".data :=
  c6_degenerate_identity [] "勞動基準法第11條".data (Or.inr rfl)

/-- C3 — the worked scenario: the labor-standards citation with article,
paragraph and item becomes a single-article link with `flno=11`. -/
theorem c3_scenario :
    hasSegment
      "[勞動基準法第11條第1項第5款](https://law.moj.gov.tw/LawClass/LawSingle.aspx?pcode=N0030001&flno=11)".data
      (linkify_law_names [("勞動基準法".data, "N0030001".data)]
        "依勞動基準法第11條第1項第5款規定".data) = true := by
  decide

/-! ### Claims C1 and C2: shape and disjointness of committed replacements -/

theorem processMatches_mem {pcode : List Char} :
    ∀ (ms : List RMatch) (reps : List Repl) (ranges : List (Nat × Nat)) (r : Repl),
      r ∈ (processMatches pcode ms reps ranges).1 →
      r ∈ reps ∨ ∃ m ∈ ms,
        r = ⟨m.mstart, m.mend, m.full, mkLink m.full (buildUrl pcode m.cite)⟩ := by
  intro ms
  induction ms with
  | nil => intro reps ranges r h; exact Or.inl h
  | cons m rest ih =>
    intro reps ranges r h
    unfold processMatches at h
    split at h
    · rcases ih _ _ r h with h | ⟨m', hm', he⟩
      · exact Or.inl h
      · exact Or.inr ⟨m', List.mem_cons_of_mem m hm', he⟩
    · rcases ih _ _ r h with h | ⟨m', hm', he⟩
      · rcases List.mem_append.mp h with h | h
        · exact Or.inl h
        · refine Or.inr ⟨m, List.mem_cons_self m rest, ?_⟩
          simpa using h
      · exact Or.inr ⟨m', List.mem_cons_of_mem m hm', he⟩

theorem collectRepls_mem {lawMap : LawMap} {text : List Char} :
    ∀ (names : List (List Char)) (reps : List Repl) (ranges : List (Nat × Nat)) (r : Repl),
      r ∈ (collectRepls lawMap text names reps ranges).1 →
      r ∈ reps ∨ ∃ n ∈ names, ∃ m ∈ findMatches n text,
        r = ⟨m.mstart, m.mend, m.full, mkLink m.full (buildUrl (codeOf lawMap n) m.cite)⟩ := by
  intro names
  induction names with
  | nil => intro reps ranges r h; exact Or.inl h
  | cons n rest ih =>
    intro reps ranges r h
    unfold collectRepls at h
    rcases ih _ _ r h with h | ⟨n', hn', m, hm, he⟩
    · rcases processMatches_mem _ _ _ r h with h | ⟨m, hm, he⟩
      · exact Or.inl h
      · exact Or.inr ⟨n, List.mem_cons_self n rest, m, hm, he⟩
    · exact Or.inr ⟨n', List.mem_cons_of_mem n hn', m, hm, he⟩

theorem buildUrl_eq_search (pcode a : List Char) :
    buildUrl pcode a = match searchArticleNum a with
      | some ds => lawSingleUrl pcode ds
      | none => lawAllUrl pcode := by
  unfold buildUrl
  by_cases ha : a.isEmpty = true
  · rw [if_pos ha]
    rw [List.isEmpty_iff] at ha
    subst ha
    rfl
  · rw [if_neg ha]

/-- C1 — every committed replacement substitutes the Markdown link
`[label](url)`: the label is exactly the originally matched span of the
text (bracket punctuation and citation suffix included), and the url is
the single-article page `LawSingle.aspx?pcode=<code>&flno=N` when the
citation suffix yields an article number `N`, the whole-statute page
`LawAll.aspx?pcode=<code>` otherwise, for the code mapped to the matched
statute name.  Only the extracted article number influences the url. -/
theorem c1_replacement_shape (lawMap : LawMap) (text : List Char) (r : Repl)
    (hr : r ∈ committedRepls lawMap text) :
    ∃ name cite,
      name ∈ lawMap.map Prod.fst ∧
      matchHere name (text.drop r.rstart) = some (r.orig, cite) ∧
      r.rend = r.rstart + r.orig.length ∧
      (text.drop r.rstart).take r.orig.length = r.orig ∧
      r.link = mkLink r.orig
        (match searchArticleNum cite with
          | some ds => lawSingleUrl (codeOf lawMap name) ds
          | none => lawAllUrl (codeOf lawMap name)) := by
  unfold committedRepls at hr
  rcases collectRepls_mem _ _ _ r hr with h | ⟨n, hn, m, hm, he⟩
  · simp at h
  · obtain ⟨hmh, hend⟩ := findIter_sound _ _ m hm
    subst he
    refine ⟨n, m.cite, mem_sortedLawNames hn, hmh, hend, ?_, ?_⟩
    · obtain ⟨ob, cb, rest, _, _, _, hsplit, _⟩ := matchHere_decomp hmh
      rw [hsplit, List.take_append_eq_append_take]
      simp
    · rw [buildUrl_eq_search]

theorem c1_replacement_shape_witness :
    ∃ name cite,
      name ∈ ([("勞動基準法".data, "N0030001".data)] : LawMap).map Prod.fst ∧
      matchHere name ("依勞動基準法第11條第1項第5款規定".data.drop 1)
        = some ("勞動基準法第11條第1項第5款".data, cite) ∧
      (16 : Nat) = 1 + ("勞動基準法第11條第1項第5款".data).length ∧
      ("依勞動基準法第11條第1項第5款規定".data.drop 1).take
          ("勞動基準法第11條第1項第5款".data).length
        = "勞動基準法第11條第1項第5款".data ∧
      "[勞動基準法第11條第1項第5款](https://law.moj.gov.tw/LawClass/LawSingle.aspx?pcode=N0030001&flno=11)".data
        = mkLink "勞動基準法第11條第1項第5款".data
            (match searchArticleNum cite with
              | some ds =>
                lawSingleUrl (codeOf [("勞動基準法".data, "N0030001".data)] name) ds
              | none =>
                lawAllUrl (codeOf [("勞動基準法".data, "N0030001".data)] name)) :=
  c1_replacement_shape [("勞動基準法".data, "N0030001".data)]
    "依勞動基準法第11條第1項第5款規定".data
    ⟨1, 16, "勞動基準法第11條第1項第5款".data,
      "[勞動基準法第11條第1項第5款](https://law.moj.gov.tw/LawClass/LawSingle.aspx?pcode=N0030001&flno=11)".data⟩
    (by decide)

theorem overlapsB_false {s e : Nat} {ranges : List (Nat × Nat)}
    (h : overlapsB s e ranges = false) :
    ∀ ab ∈ ranges, ¬(s < ab.2 ∧ e > ab.1) := by
  intro ab hab hc
  unfold overlapsB at h
  rw [List.any_eq_false] at h
  have hx := h ab hab
  simp [hc.1, hc.2] at hx

theorem pairwise_snoc {R : Nat × Nat → Nat × Nat → Prop} {l : List (Nat × Nat)}
    {x : Nat × Nat}
    (hl : l.Pairwise R) (hx : ∀ a ∈ l, R a x) : (l ++ [x]).Pairwise R := by
  rw [List.pairwise_append]
  refine ⟨hl, List.pairwise_singleton R x, ?_⟩
  intro a ha b hb
  rw [List.mem_singleton] at hb
  subst hb
  exact hx a ha

theorem processMatches_inv {pcode : List Char} :
    ∀ (ms : List RMatch) (reps : List Repl) (ranges : List (Nat × Nat)),
      ranges.Pairwise (fun a b => ¬(a.1 < b.2 ∧ b.1 < a.2)) →
      (processMatches pcode ms reps ranges).2.Pairwise
        (fun a b => ¬(a.1 < b.2 ∧ b.1 < a.2)) := by
  intro ms
  induction ms with
  | nil => intro reps ranges h; exact h
  | cons m rest ih =>
    intro reps ranges h
    unfold processMatches
    split
    · exact ih _ _ h
    · rename_i hov
      apply ih
      apply pairwise_snoc h
      intro a ha
      have hno := overlapsB_false (Bool.eq_false_iff.mpr hov) a ha
      intro hc
      exact hno ⟨hc.2, hc.1⟩

theorem processMatches_spans {pcode : List Char} :
    ∀ (ms : List RMatch) (reps : List Repl) (ranges : List (Nat × Nat)),
      reps.map (fun r => (r.rstart, r.rend)) = ranges →
      ((processMatches pcode ms reps ranges).1).map (fun r => (r.rstart, r.rend))
        = (processMatches pcode ms reps ranges).2 := by
  intro ms
  induction ms with
  | nil => intro reps ranges h; exact h
  | cons m rest ih =>
    intro reps ranges h
    unfold processMatches
    split
    · exact ih _ _ h
    · apply ih
      rw [List.map_append, h]
      rfl

theorem collectRepls_inv {lawMap : LawMap} {text : List Char} :
    ∀ names reps ranges,
      ranges.Pairwise (fun a b => ¬(a.1 < b.2 ∧ b.1 < a.2)) →
      reps.map (fun r => (r.rstart, r.rend)) = ranges →
      ((collectRepls lawMap text names reps ranges).2.Pairwise
          (fun a b => ¬(a.1 < b.2 ∧ b.1 < a.2)) ∧
        ((collectRepls lawMap text names reps ranges).1).map (fun r => (r.rstart, r.rend))
          = (collectRepls lawMap text names reps ranges).2) := by
  intro names
  induction names with
  | nil => intro reps ranges h1 h2; exact ⟨h1, h2⟩
  | cons n rest ih =>
    intro reps ranges h1 h2
    unfold collectRepls
    exact ih _ _ (processMatches_inv _ _ _ h1) (processMatches_spans _ _ _ h2)

/-- C2 — the committed spans of a `linkify_law_names` call are pairwise
non-overlapping (half-open interval overlap), every overlapping candidate
having been skipped, and the committed replacements line up one-to-one
with the committed spans. -/
theorem c2_committed_nonoverlapping (lawMap : LawMap) (text : List Char) :
    (committedRanges lawMap text).Pairwise (fun a b => ¬(a.1 < b.2 ∧ b.1 < a.2)) ∧
      (committedRepls lawMap text).map (fun r => (r.rstart, r.rend))
        = committedRanges lawMap text := by
  unfold committedRanges committedRepls
  exact collectRepls_inv _ _ _ List.Pairwise.nil rfl

/-! ### Claim C7: substitution in descending start order -/

theorem spansChainB_cons {text : List Char} {pos : Nat} {r : Repl} {rest : List Repl}
    (h : spansChainB text pos (r :: rest) = true) :
    pos ≤ r.rstart ∧ r.rstart < r.rend ∧ r.rend ≤ text.length ∧
      spansChainB text r.rend rest = true := by
  unfold spansChainB at h
  simp only [Bool.and_eq_true, decide_eq_true_eq] at h
  exact ⟨h.1.1.1, h.1.1.2, h.1.2, h.2⟩

theorem insertByStart_front {r : Repl} {acc : List Repl}
    (h : ∀ x ∈ acc, x.rstart < r.rstart) : insertByStart r acc = r :: acc := by
  cases acc with
  | nil => rfl
  | cons x xs =>
    unfold insertByStart
    rw [if_neg]
    have := h x (List.mem_cons_self x xs)
    omega

theorem foldl_insert_desc {text : List Char} :
    ∀ (rs : List Repl) (pos : Nat) (acc : List Repl),
      spansChainB text pos rs = true →
      (∀ x ∈ acc, x.rstart < pos) →
      rs.foldl (fun a r => insertByStart r a) acc = rs.reverse ++ acc := by
  intro rs
  induction rs with
  | nil => intro pos acc _ _; simp
  | cons r rest ih =>
    intro pos acc hchain hacc
    obtain ⟨h1, h2, h3, h4⟩ := spansChainB_cons hchain
    simp only [List.foldl]
    rw [insertByStart_front (fun x hx => by have := hacc x hx; omega)]
    rw [ih r.rend (r :: acc) h4 ?side]
    · simp
    case side =>
      intro x hx
      rcases List.mem_cons.mp hx with he | hx
      · rw [he]; omega
      · have := hacc x hx; omega

theorem sortRepls_of_chain {text : List Char} {rs : List Repl}
    (h : spansChainB text 0 rs = true) : sortRepls rs = rs.reverse := by
  unfold sortRepls
  rw [foldl_insert_desc rs 0 [] h (by simp)]
  simp

theorem applyRepls_reverse (text : List Char) (rs : List Repl) :
    applyRepls text rs.reverse =
      rs.foldr (fun r res => res.take r.rstart ++ r.link ++ res.drop r.rend) text := by
  unfold applyRepls
  rw [List.foldl_reverse]

theorem foldr_repls_interleave {text : List Char} :
    ∀ (rs : List Repl) (pos : Nat), spansChainB text pos rs = true →
      rs.foldr (fun r res => res.take r.rstart ++ r.link ++ res.drop r.rend) text
        = text.take pos ++ interleaveFrom text pos rs := by
  intro rs
  induction rs with
  | nil =>
    intro pos _
    simp [interleaveFrom]
  | cons r rest ih =>
    intro pos hchain
    obtain ⟨h1, h2, h3, h4⟩ := spansChainB_cons hchain
    simp only [List.foldr]
    rw [ih r.rend h4]
    have hlen : (text.take r.rend).length = r.rend := by
      rw [List.length_take]
      omega
    have htake : (text.take r.rend ++ interleaveFrom text r.rend rest).take r.rstart
        = text.take r.rstart := by
      rw [List.take_append_eq_append_take, hlen]
      have hz : r.rstart - r.rend = 0 := by omega
      rw [hz, List.take_take]
      have hmin : min r.rstart r.rend = r.rstart := by omega
      rw [hmin]
      simp
    have hdrop : (text.take r.rend ++ interleaveFrom text r.rend rest).drop r.rend
        = interleaveFrom text r.rend rest := by
      rw [List.drop_append_eq_append_drop, hlen]
      have hz : r.rend - r.rend = 0 := by omega
      rw [hz, List.drop_eq_nil_of_le (le_of_eq hlen)]
      simp
    rw [htake, hdrop]
    conv_rhs => rw [interleaveFrom]
    have hjoin : text.take pos ++ (text.drop pos).take (r.rstart - pos)
        = text.take r.rstart := by
      rw [← List.take_add]
      have : pos + (r.rstart - pos) = r.rstart := by omega
      rw [this]
    rw [← hjoin]
    simp [List.append_assoc]

/-- C7 — the committed substitutions, applied rightmost first (descending
start offsets), produce exactly the interleaving of the untouched text
with the links: earlier substitutions never shift the offsets of later
ones, and the text between and around the spans is unchanged. -/
theorem c7_rightmost_first_substitution (text : List Char) (rs : List Repl)
    (h : spansChainB text 0 rs = true) :
    applyRepls text (sortRepls rs) = interleaveFrom text 0 rs := by
  rw [sortRepls_of_chain h, applyRepls_reverse, foldr_repls_interleave rs 0 h]
  simp

theorem c7_rightmost_first_substitution_witness :
    spansChainB "abcdef".data 0
        [⟨1, 2, "b".data, "XX".data⟩, ⟨3, 4, "d".data, "YYY".data⟩] = true ∧
      applyRepls "abcdef".data
          (sortRepls [⟨1, 2, "b".data, "XX".data⟩, ⟨3, 4, "d".data, "YYY".data⟩])
        = interleaveFrom "abcdef".data 0
            [⟨1, 2, "b".data, "XX".data⟩, ⟨3, 4, "d".data, "YYY".data⟩] :=
  ⟨by decide,
    c7_rightmost_first_substitution "abcdef".data
      [⟨1, 2, "b".data, "XX".data⟩, ⟨3, 4, "d".data, "YYY".data⟩] (by decide)⟩

/-! ### Claim C9: the scoped variant changes only the scoped region -/

theorem headerHere_le {lit s : List Char} {k : Nat} (h : headerHere lit s = some k) :
    k ≤ s.length := by
  unfold headerHere at h
  split at h
  · rename_i hpre
    split at h
    · rename_i c r hdr
      split at h
      · rw [Option.some.injEq] at h
        have hlen := congrArg List.length (append_drop_of_isPre hpre)
        rw [List.length_append, hdr] at hlen
        have htw : ((r.takeWhile isWs).length ≤ r.length) :=
          List.Sublist.length_le (List.takeWhile_sublist isWs)
        simp only [List.length_cons] at hlen
        omega
      · simp at h
    · simp at h
  · simp at h

theorem searchHdr_le {lit : List Char} :
    ∀ (s : List Char) (k : Nat), searchHdr lit s = some k → k ≤ s.length := by
  intro s
  induction s with
  | nil =>
    intro k h
    unfold searchHdr at h
    exact headerHere_le h
  | cons c rest ih =>
    intro k h
    unfold searchHdr at h
    split at h
    · rename_i k0 hh
      rw [Option.some.injEq] at h
      subst h
      exact headerHere_le hh
    · rw [Option.map_eq_some'] at h
      obtain ⟨k0, hk0, hk⟩ := h
      have := ih k0 hk0
      simp only [List.length_cons]
      omega

theorem findSectionEnd_le : ∀ (s : List Char) (p : Nat),
    findSectionEnd s = some p → p ≤ s.length := by
  intro s
  induction s with
  | nil => intro p h; simp [findSectionEnd] at h
  | cons c rest ih =>
    intro p h
    unfold findSectionEnd at h
    split at h
    · rw [Option.some.injEq] at h
      omega
    · rw [Option.map_eq_some'] at h
      obtain ⟨p0, hp0, hp⟩ := h
      have := ih p0 hp0
      simp only [List.length_cons]
      omega

theorem sectionContentStart_le {text : List Char} {k : Nat} (hk : k ≤ text.length) :
    sectionContentStart text k ≤ text.length := by
  unfold sectionContentStart
  have h1 : ((text.drop k).takeWhile isWs).length ≤ (text.drop k).length :=
    List.Sublist.length_le (List.takeWhile_sublist isWs)
  have h2 : (text.drop k).length = text.length - k := List.length_drop k text
  omega

theorem sectionEndPos_bounds {text : List Char} {cs : Nat} (hcs : cs ≤ text.length) :
    cs ≤ sectionEndPos text cs ∧ sectionEndPos text cs ≤ text.length := by
  unfold sectionEndPos
  split
  · rename_i p hp
    have hb := findSectionEnd_le _ _ hp
    rw [List.length_drop] at hb
    omega
  · omega

/-- C9 — `linkify_law_section` changes at most the scoped region: the
result is always the unchanged text before the scoped region's content
start, the linkified region, and the unchanged text after the region's
end; and when no recognized header occurs the whole text is returned
unchanged. -/
theorem c9_section_frame (lawMap : LawMap) (text : List Char) :
    (∃ cs ep, cs ≤ ep ∧ ep ≤ text.length ∧
      linkify_law_section lawMap text =
        text.take cs ++ linkify_law_names lawMap ((text.drop cs).take (ep - cs))
          ++ text.drop ep) ∧
    (noHeaderB text = true → linkify_law_section lawMap text = text) := by
  constructor
  · unfold linkify_law_section
    by_cases ht : text.isEmpty = true
    · rw [if_pos ht]
      rw [List.isEmpty_iff] at ht
      subst ht
      exact ⟨0, 0, le_refl 0, le_refl 0, by simp [linkify_law_names]⟩
    · rw [if_neg ht]
      have hloop : ∀ lits, ∃ cs ep, cs ≤ ep ∧ ep ≤ text.length ∧
          sectionLoop lawMap text lits =
            text.take cs ++ linkify_law_names lawMap ((text.drop cs).take (ep - cs))
              ++ text.drop ep := by
        intro lits
        induction lits with
        | nil =>
          refine ⟨text.length, text.length, le_refl _, le_refl _, ?_⟩
          simp [sectionLoop, linkify_law_names]
        | cons lit rest ih =>
          unfold sectionLoop
          split
          · rename_i k hk
            have hkle : k ≤ text.length := searchHdr_le _ _ hk
            have hcs := sectionContentStart_le hkle
            obtain ⟨hb1, hb2⟩ := sectionEndPos_bounds hcs
            exact ⟨sectionContentStart text k,
              sectionEndPos text (sectionContentStart text k), hb1, hb2, rfl⟩
          · exact ih
      exact hloop headerLits
  · intro hnone
    unfold noHeaderB at hnone
    rw [List.all_eq_true] at hnone
    unfold linkify_law_section
    by_cases ht : text.isEmpty = true
    · rw [if_pos ht]
    · rw [if_neg ht]
      have hloop : ∀ lits, (∀ lit ∈ lits, (searchHdr lit text).isNone = true) →
          sectionLoop lawMap text lits = text := by
        intro lits
        induction lits with
        | nil => intro _; rfl
        | cons lit rest ih =>
          intro h
          unfold sectionLoop
          split
          · rename_i k hk
            have hl := h lit (List.mem_cons_self _ _)
            rw [hk] at hl
            simp at hl
          · exact ih (fun l hl => h l (List.mem_cons_of_mem _ hl))
      exact hloop headerLits (fun l hl => hnone l hl)

theorem c9_section_frame_witness :
    noHeaderB "今天天氣勞動基準法".data = true ∧
      linkify_law_section [("勞動基準法".data, "N0030001".data)]
          "今天天氣勞動基準法".data
        = "今天天氣勞動基準法".data :=
  ⟨by decide, (c9_section_frame _ _).2 (by decide)⟩

/-! ### Claim C4: longest-first processing of prefix-related names -/

theorem drop_add_of_drop_append (a : List Char) {text u : List Char} {i : Nat}
    (h : text.drop i = a ++ u) : text.drop (i + a.length) = u := by
  rw [← List.drop_drop, h, List.drop_left]

/-- When a statute name occurs at exactly one position of the text, the
scan emits exactly one match; it starts at that position or one character
earlier (a leading bracket), and its span covers the whole name. -/
theorem uniqueOcc_matches (name text : List Char) (q : Nat)
    (hne : name ≠ [])
    (hocc : occursAtB name text q = true)
    (huniq : ∀ i, occursAtB name text i = true → i = q) :
    ∃ m : RMatch, findMatches name text = [m] ∧
      q + name.length ≤ text.length ∧
      m.mstart ≤ q ∧ q ≤ m.mstart + 1 ∧ q + name.length ≤ m.mend ∧
      ∃ ob tail, m.full = ob ++ (name ++ tail) ∧ m.mstart + ob.length = q := by
  have hnl : 1 ≤ name.length := List.length_pos.mpr hne
  have hprefix : name.isPrefixOf (text.drop q) = true := hocc
  have happ := congrArg List.length (append_drop_of_isPre hprefix)
  rw [List.length_append, List.length_drop, List.length_drop] at happ
  have hqle : q + name.length ≤ text.length := by omega
  have hfail : ∀ i, i ≠ q → i + 1 ≠ q → matchHere name (text.drop i) = none := by
    intro i hi hi1
    apply matchHere_at_none
    · cases hb : occursAtB name text i with
      | true => exact absurd (huniq i hb) hi
      | false => rfl
    · cases hb : occursAtB name text (i + 1) with
      | true => exact absurd (huniq (i + 1) hb) hi1
      | false => rfl
  by_cases hbr : ∃ v, q ≠ 0 ∧ matchHere name (text.drop (q - 1)) = some v
  · obtain ⟨⟨g0, g1⟩, hq0, hmid⟩ := hbr
    obtain ⟨ob, cb, rest, hob, hcb, hg0, hseq, hcite⟩ := matchHere_decomp hmid
    have hdropn : text.drop ((q - 1) + ob.length) = name ++ ((cb ++ g1) ++ rest) := by
      apply drop_add_of_drop_append ob
      rw [hseq, hg0]
      simp [List.append_assoc]
    have hoccn : occursAtB name text ((q - 1) + ob.length) = true := by
      unfold occursAtB
      rw [hdropn]
      exact isPre_of_append name _
    have hpos := huniq _ hoccn
    have hoblen : ob.length = 1 := by
      rcases hob with he | ⟨c, _, he⟩
      · subst he
        simp at hpos
        omega
      · subst he
        rfl
    have hg0ne : g0 ≠ [] := by
      rw [hg0]
      intro hnil
      simp at hnil
      exact hne hnil.2.1
    have hglen : name.length + 1 ≤ g0.length := by
      rw [hg0]
      simp [List.length_append]
      omega
    have hlow : ∀ i, i < q - 1 → matchHere name (text.drop i) = none := by
      intro i hi
      exact hfail i (by omega) (by omega)
    have hhigh : ∀ i, (q - 1) + g0.length ≤ i → matchHere name (text.drop i) = none := by
      intro i hi
      exact hfail i (by omega) (by omega)
    refine ⟨⟨q - 1, (q - 1) + g0.length, g0, g1⟩, ?_, hqle, by dsimp only; omega,
      by dsimp only; omega, by dsimp only; omega,
      ⟨ob, cb ++ g1, by dsimp only; rw [hg0], by dsimp only; omega⟩⟩
    unfold findMatches
    exact scan_one (by omega) hg0ne hlow hmid hhigh (text.length + 2) 0
      (by omega) (by omega)
  · push_neg at hbr
    obtain ⟨nc, name1, hname⟩ : ∃ nc name1, name = nc :: name1 := by
      cases name with
      | nil => exact absurd rfl hne
      | cons a b => exact ⟨a, b, rfl⟩
    have hdq : text.drop q = nc :: (name1 ++ (text.drop q).drop name.length) := by
      conv_lhs => rw [← append_drop_of_isPre hprefix]
      rw [hname]
      rfl
    have hpre2 : name.isPrefixOf (nc :: (name1 ++ (text.drop q).drop name.length)) = true := by
      rw [← hdq]
      exact hprefix
    have hcond1 : (openBrackets.contains nc
        && name.isPrefixOf (name1 ++ (text.drop q).drop name.length)) = false := by
      cases hpre1 : name.isPrefixOf (name1 ++ (text.drop q).drop name.length) with
      | false => simp
      | true =>
        exfalso
        have hocc1 : occursAtB name text (q + 1) = true := by
          unfold occursAtB
          rw [drop_succ_of_drop_cons hdq]
          exact hpre1
        have := huniq _ hocc1
        omega
    rcases hAN : afterName name
        ((nc :: (name1 ++ (text.drop q).drop name.length)).drop name.length) with ⟨g0, g1⟩
    have hmid : matchHere name (text.drop q) = some (g0, g1) := by
      conv_lhs => rw [hdq]
      simp only [matchHere]
      rw [hcond1, if_neg (by simp), if_pos hpre2, hAN]
    obtain ⟨ob, cb, rest, hob, hcb, hg0, hseq, hcite⟩ := matchHere_decomp hmid
    have hdropn : text.drop (q + ob.length) = name ++ ((cb ++ g1) ++ rest) := by
      apply drop_add_of_drop_append ob
      rw [hseq, hg0]
      simp [List.append_assoc]
    have hoccn : occursAtB name text (q + ob.length) = true := by
      unfold occursAtB
      rw [hdropn]
      exact isPre_of_append name _
    have hpos := huniq _ hoccn
    have hoblen : ob.length = 0 := by omega
    have hg0ne : g0 ≠ [] := by
      rw [hg0]
      intro hnil
      simp at hnil
      exact hne hnil.2.1
    have hglen : name.length ≤ g0.length := by
      rw [hg0]
      simp only [List.length_append]
      omega
    have hlow : ∀ i, i < q → matchHere name (text.drop i) = none := by
      intro i hi
      by_cases hiq : i + 1 = q
      · have hq0 : q ≠ 0 := by omega
        have hieq : i = q - 1 := by omega
        cases hM : matchHere name (text.drop (q - 1)) with
        | none => rw [hieq]; exact hM
        | some v => exact absurd hM (hbr v hq0)
      · exact hfail i (by omega) hiq
    have hhigh : ∀ i, q + g0.length ≤ i → matchHere name (text.drop i) = none := by
      intro i hi
      exact hfail i (by omega) (by omega)
    refine ⟨⟨q, q + g0.length, g0, g1⟩, ?_, hqle, by dsimp only; omega,
      by dsimp only; omega, by dsimp only; omega,
      ⟨ob, cb ++ g1, by dsimp only; rw [hg0], by dsimp only; omega⟩⟩
    unfold findMatches
    exact scan_one (by omega) hg0ne hlow hmid hhigh (text.length + 2) 0
      (by omega) (by omega)

theorem processMatches_single_commit {pcode : List Char} {m : RMatch}
    {reps : List Repl} {ranges : List (Nat × Nat)}
    (h : overlapsB m.mstart m.mend ranges = false) :
    processMatches pcode [m] reps ranges =
      (reps ++ [⟨m.mstart, m.mend, m.full, mkLink m.full (buildUrl pcode m.cite)⟩],
        ranges ++ [(m.mstart, m.mend)]) := by
  unfold processMatches
  rw [if_neg (by rw [h]; simp)]
  rfl

theorem processMatches_single_skip {pcode : List Char} {m : RMatch}
    {reps : List Repl} {ranges : List (Nat × Nat)}
    (h : overlapsB m.mstart m.mend ranges = true) :
    processMatches pcode [m] reps ranges = (reps, ranges) := by
  unfold processMatches
  rw [if_pos h]
  rfl

/-- C4 — when the code map holds two statute names, one a strict prefix of
the other, and the text contains the longer name exactly once (and the
shorter one only inside that occurrence), `linkify_law_names` commits
exactly one replacement: its label covers the full longer name, and the
shorter name produces no link of its own because the names are processed
longest first. -/
theorem c4_longest_name_wins (sname lname cS cL text : List Char) (q : Nat)
    (lawMap : LawMap)
    (hsne : sname ≠ [])
    (hstrict : ∃ t, t ≠ [] ∧ lname = sname ++ t)
    (hocc : occursAtB lname text q = true)
    (huniqL : ∀ i, i ≤ text.length → occursAtB lname text i = true → i = q)
    (huniqS : ∀ i, i ≤ text.length → occursAtB sname text i = true → i = q)
    (hmap : lawMap = [(sname, cS), (lname, cL)] ∨ lawMap = [(lname, cL), (sname, cS)]) :
    ∃ r : Repl, committedRepls lawMap text = [r] ∧
      linkify_law_names lawMap text = text.take r.rstart ++ r.link ++ text.drop r.rend ∧
      r.rstart ≤ q ∧ q + lname.length ≤ r.rend ∧
      ∃ ob tail, r.orig = ob ++ (lname ++ tail) ∧ r.rstart + ob.length = q := by
  have hsl : 1 ≤ sname.length := List.length_pos.mpr hsne
  have hlen : sname.length < lname.length := by
    obtain ⟨t, ht, he⟩ := hstrict
    rw [he, List.length_append]
    have := List.length_pos.mpr ht
    omega
  have hlne : lname ≠ [] := by
    intro hnil
    rw [hnil] at hlen
    simp at hlen
  have hll : 1 ≤ lname.length := List.length_pos.mpr hlne
  have huniqL' : ∀ i, occursAtB lname text i = true → i = q := by
    intro i hi
    by_cases hle : i ≤ text.length
    · exact huniqL i hle hi
    · exfalso
      have hf : occursAtB lname text i = false :=
        occursAtB_false_beyond hlne (by omega)
      rw [hi] at hf
      simp at hf
  have huniqS' : ∀ i, occursAtB sname text i = true → i = q := by
    intro i hi
    by_cases hle : i ≤ text.length
    · exact huniqS i hle hi
    · exfalso
      have hf : occursAtB sname text i = false :=
        occursAtB_false_beyond hsne (by omega)
      rw [hi] at hf
      simp at hf
  have hoccS : occursAtB sname text q = true := by
    obtain ⟨t, ht, he⟩ := hstrict
    unfold occursAtB at hocc ⊢
    rw [he] at hocc
    exact isPre_of_isPre_append hocc
  have hneq : sname ≠ lname := by
    intro he
    rw [he] at hlen
    omega
  have hins2 : insertByLen lname [sname] = [lname, sname] := by
    unfold insertByLen
    rw [if_neg (by omega)]
  have hins4 : insertByLen sname [lname] = [lname, sname] := by
    unfold insertByLen
    rw [if_pos (by omega)]
    rfl
  have hsorted : sortedLawNames lawMap = [lname, sname] := by
    rcases hmap with he | he
    · subst he
      unfold sortedLawNames
      simp only [List.map, List.foldl]
      show insertByLen lname (insertByLen sname []) = [lname, sname]
      rw [show insertByLen sname ([] : List (List Char)) = [sname] from rfl, hins2]
    · subst he
      unfold sortedLawNames
      simp only [List.map, List.foldl]
      show insertByLen sname (insertByLen lname []) = [lname, sname]
      rw [show insertByLen lname ([] : List (List Char)) = [lname] from rfl, hins4]
  have hcodeL : codeOf lawMap lname = cL := by
    rcases hmap with he | he <;> subst he <;> simp [codeOf, hneq]
  obtain ⟨mL, hML, hqleL, hLs, hLs1, hLe, obL, tailL, hLfull, hLob⟩ :=
    uniqueOcc_matches lname text q hlne hocc huniqL'
  obtain ⟨mS, hMS, _, hSs, hSs1, hSe, obS, tailS, hSfull, hSob⟩ :=
    uniqueOcc_matches sname text q hsne hoccS huniqS'
  have hovS : overlapsB mS.mstart mS.mend [(mL.mstart, mL.mend)] = true := by
    unfold overlapsB
    simp only [List.any_cons, List.any_nil, Bool.or_false, Bool.and_eq_true,
      decide_eq_true_eq]
    omega
  have hcoll : collectRepls lawMap text [lname, sname] [] [] =
      ([⟨mL.mstart, mL.mend, mL.full, mkLink mL.full (buildUrl cL mL.cite)⟩],
        [(mL.mstart, mL.mend)]) := by
    have hov0 : overlapsB mL.mstart mL.mend ([] : List (Nat × Nat)) = false := rfl
    simp only [collectRepls]
    rw [hML, hMS, hcodeL]
    rw [processMatches_single_commit hov0]
    dsimp only
    simp only [List.nil_append]
    rw [processMatches_single_skip hovS]
  have htne : text ≠ [] := by
    intro he
    rw [he] at hqleL
    simp only [List.length_nil] at hqleL
    omega
  have hmne : lawMap ≠ [] := by
    rcases hmap with he | he <;> subst he <;> simp
  refine ⟨⟨mL.mstart, mL.mend, mL.full, mkLink mL.full (buildUrl cL mL.cite)⟩,
    ?_, ?_, hLs, hLe, ⟨obL, tailL, hLfull, hLob⟩⟩
  · unfold committedRepls
    rw [hsorted, hcoll]
  · unfold linkify_law_names
    rw [if_neg (by simp [htne, hmne]), hsorted, hcoll]
    rfl

theorem c4_longest_name_wins_witness :
    ∃ r : Repl,
      committedRepls [("勞動基準法".data, "N0030001".data),
        ("勞動基準法施行細則".data, "N0030002".data)] "依勞動基準法施行細則規定".data = [r] ∧
      linkify_law_names [("勞動基準法".data, "N0030001".data),
          ("勞動基準法施行細則".data, "N0030002".data)] "依勞動基準法施行細則規定".data
        = "依勞動基準法施行細則規定".data.take r.rstart ++ r.link
            ++ "依勞動基準法施行細則規定".data.drop r.rend ∧
      r.rstart ≤ 1 ∧ 1 + ("勞動基準法施行細則".data).length ≤ r.rend ∧
      ∃ ob tail, r.orig = ob ++ ("勞動基準法施行細則".data ++ tail) ∧
        r.rstart + ob.length = 1 :=
  c4_longest_name_wins "勞動基準法".data "勞動基準法施行細則".data
    "N0030001".data "N0030002".data "依勞動基準法施行細則規定".data 1
    [("勞動基準法".data, "N0030001".data), ("勞動基準法施行細則".data, "N0030002".data)]
    (by decide) ⟨"施行細則".data, by decide, by decide⟩ (by decide)
    (by decide) (by decide) (Or.inl rfl)

end HrRag
